import Mathlib

/-!
Verification of the whisky-scraper core (packages/scraper/src/scripts/scrape.ts).

The development shallowly embeds the components of the scraper that the
specification describes: the termination criteria shared by the boundary
finder and the worker pool, the two phases of `findMaxWhiskyId`, the worker
pool's ID claiming and stopping logic, and the `BatchBuffer`
(`add` / `flush` / `flushAll`, plus the chunking in `saveWhiskyDataBatch`).

Modelling conventions:
* JavaScript numbers are modelled as `Nat` (all quantities involved are
  non-negative integers within safe range); the floating-point rate
  comparison `count / length >= 0.95` is modelled exactly over `ℚ` with the
  threshold `19/20`; all concrete evaluations stay far from the boundary.
* The windows in `findMaxWhiskyId` store plain booleans in the source
  (`true` = 404).  Here each pushed entry is the pair of the probed ID and
  the boolean; the ID component is ghost instrumentation (the criteria only
  read the boolean), which lets theorems speak about which ID an evicted
  entry belonged to.
* Asynchronous interleaving is modelled by explicit event traces
  (`BBEvent`, `PoolEvent`), with one event per atomic section of the
  single-threaded JavaScript code (no `await` inside a section).
-/

namespace Shwisk

/-- Classified result of probing one ID: a page was found, the source
reported `NOT_FOUND`, or a non-404 application error occurred. -/
inductive Outcome : Type
  | found
  | notFound
  | err
deriving DecidableEq

/-- The three termination parameters of `scrape.ts`
(`minConsecutive404s`, `windowSize`, `min404Rate`). -/
structure TermCfg : Type where
  minC : Nat
  W : Nat
  minRate : ℚ
deriving DecidableEq

/-- The constants hard-coded in `scrape.ts`:
`minConsecutive404s = 3000`, `windowSize = 4500`, `min404Rate = 0.95`
(the float literal `0.95` is the exact rational `19/20`; every concrete
rate compared against it in this development is far from the threshold, so
the exact-rational model agrees with IEEE double arithmetic there). -/
def workerCfg : TermCfg := ⟨3000, 4500, mkRat 19 20⟩

/-- `recentResults.push(x); if (recentResults.length > windowSize)
recentResults.shift();` — append one entry and evict the arrival-oldest
entry when the window would exceed `W`. -/
def pushShift (W : Nat) (w : List (Nat × Bool)) (x : Nat × Bool) :
    List (Nat × Bool) :=
  let w2 := w ++ [x]
  if W < w2.length then w2.tail else w2

/-- `recentResults.filter((r) => r).length` — number of 404 entries. -/
def count404 (w : List (Nat × Bool)) : Nat := (w.filter (fun r => r.2)).length

/-- `recentResults.length >= windowSize ? (404 count) / length : 0` —
the windowed 404 rate used by both phases of `findMaxWhiskyId`.  The
division is modelled exactly over `ℚ` via `mkRat` (the denominator is
positive wherever the branch is reachable). -/
def rateVal (W : Nat) (w : List (Nat × Bool)) : ℚ :=
  if W ≤ w.length then mkRat (count404 w) w.length else 0

/-- `consecutive404s >= minConsecutive404s && recent404Rate >= min404Rate` —
the break criterion of both phases of `findMaxWhiskyId`. -/
def criteria (cfg : TermCfg) (consec : Nat) (w : List (Nat × Bool)) : Bool :=
  decide (cfg.minC ≤ consec) && decide (cfg.minRate ≤ rateVal cfg.W w)

/-- `sortedResults.slice(-windowSize)`-style suffix: the last `n` entries. -/
def lastN (n : Nat) (l : List (Nat × Bool)) : List (Nat × Bool) :=
  l.drop (l.length - n)

/-- Ordering of outcome records by their ID, as used by
`[...results].sort((a, b) => a.id - b.id)`. -/
def idLE (a b : Nat × Bool) : Prop := a.1 ≤ b.1

instance : DecidableRel idLE := fun a b => Nat.decLe a.1 b.1

instance : IsTotal (Nat × Bool) idLE := ⟨fun a b => Nat.le_total a.1 b.1⟩

instance : IsTrans (Nat × Bool) idLE := ⟨fun _ _ _ => Nat.le_trans⟩

/-- `[...results].sort((a, b) => a.id - b.id)`. -/
def sortById (l : List (Nat × Bool)) : List (Nat × Bool) :=
  List.insertionSort idLE l

/-- The worker's trailing-404 count: `for (i = len-1; i >= 0; i--) { if
(recentResults[i].is404) consecutive404s++; else break; }`. -/
def trailing404 (w : List (Nat × Bool)) : Nat :=
  (w.reverse.takeWhile (fun r => r.2)).length

/-- Forward scan with reset — the counter abstraction used by the
specification ("count of trailing NotFound outcomes at the high-ID end"),
computed as a left fold that resets on every non-404 entry. -/
def consecFold (w : List (Nat × Bool)) : Nat :=
  w.foldl (fun c r => if r.2 then c + 1 else 0) 0

/-- The worker pool's stopping check (scrape.ts, worker): only performed
once `results.length >= windowSize`; sorts the results log by ID, takes the
last `windowSize` entries, and tests the trailing-consecutive count and the
404 rate against the thresholds. -/
def workerTermination (cfg : TermCfg) (results : List (Nat × Bool)) : Bool :=
  if cfg.W ≤ results.length then
    let recent := lastN cfg.W (sortById results)
    decide (cfg.minC ≤ trailing404 recent) &&
      decide (cfg.minRate ≤ mkRat (count404 recent) recent.length)
  else false

example : workerTermination ⟨3, 5, mkRat 3 5⟩
    [(1, false), (2, false), (3, true), (4, true), (5, true)] = true := by
  decide

example : workerTermination ⟨3, 5, mkRat 3 5⟩
    [(3, true), (1, false), (5, true), (2, false), (4, true)] = true := by
  decide

lemma consecFold_append (l : List (Nat × Bool)) (x : Nat × Bool) :
    consecFold (l ++ [x]) = if x.2 then consecFold l + 1 else 0 := by
  simp [consecFold, List.foldl_append]

lemma trailing404_append (l : List (Nat × Bool)) (x : Nat × Bool) :
    trailing404 (l ++ [x]) = if x.2 then trailing404 l + 1 else 0 := by
  cases hx : x.2 <;>
    simp [trailing404, List.reverse_append, List.takeWhile_cons, hx,
      Nat.add_comm]

/-- The worker's backwards for-loop count of trailing 404 entries agrees
with the forward reset-on-miss counter. -/
lemma consecFold_eq_trailing404 (l : List (Nat × Bool)) :
    consecFold l = trailing404 l := by
  induction l using List.reverseRecOn with
  | nil => rfl
  | append_singleton l x ih => rw [consecFold_append, trailing404_append, ih]

lemma length_sortById (l : List (Nat × Bool)) :
    (sortById l).length = l.length :=
  (List.perm_insertionSort idLE l).length_eq

lemma length_lastN (n : Nat) (l : List (Nat × Bool)) (h : n ≤ l.length) :
    (lastN n l).length = n := by
  simp [lastN]
  omega

/-- C5: the worker's termination decision over a full window is true iff
the trailing count of NotFound entries at the high-ID end is at least
`minConsecutiveNotFound` and the NotFound fraction of the window is at
least `minNotFoundRate`; and on the spec's example (`minC=3, W=5,
rate=0.6`, outcomes for IDs 1..5 = `[F, F, N, N, N]`) it decides true. -/
theorem C5_termination_decision_iff :
    (∀ (cfg : TermCfg) (results : List (Nat × Bool)),
        1 ≤ cfg.W → cfg.W ≤ results.length →
        (workerTermination cfg results = true ↔
          cfg.minC ≤ consecFold (lastN cfg.W (sortById results)) ∧
          cfg.minRate ≤
            (count404 (lastN cfg.W (sortById results)) : ℚ) / (cfg.W : ℚ))) ∧
    workerTermination ⟨3, 5, mkRat 3 5⟩
      [(1, false), (2, false), (3, true), (4, true), (5, true)] = true := by
  constructor
  · intro cfg results _hW hlen
    have hrec : (lastN cfg.W (sortById results)).length = cfg.W :=
      length_lastN _ _ (by rw [length_sortById]; exact hlen)
    rw [workerTermination, if_pos hlen, Bool.and_eq_true, decide_eq_true_iff,
      decide_eq_true_iff, consecFold_eq_trailing404, hrec, Rat.mkRat_eq_div]
    push_cast
    exact Iff.rfl
  · decide

theorem C5_termination_decision_iff_witness :
    (workerTermination ⟨3, 5, mkRat 3 5⟩
        [(1, false), (2, false), (3, true), (4, true), (5, true)] = true ↔
      3 ≤ consecFold (lastN 5 (sortById
            [(1, false), (2, false), (3, true), (4, true), (5, true)])) ∧
      mkRat 3 5 ≤
        (count404 (lastN 5 (sortById
            [(1, false), (2, false), (3, true), (4, true), (5, true)])) : ℚ)
          / (5 : ℚ)) :=
  C5_termination_decision_iff.1 ⟨3, 5, mkRat 3 5⟩
    [(1, false), (2, false), (3, true), (4, true), (5, true)]
    (by decide) (by decide)

/-! ### C2: order-(in)dependence of the termination decision -/

/-- Strict ID order, used to identify the two sorted lists. -/
def idLT (a b : Nat × Bool) : Prop := a.1 < b.1

instance : IsAntisymm (Nat × Bool) idLT :=
  ⟨fun _ _ h1 h2 => absurd (Nat.lt_trans h1 h2) (Nat.lt_irrefl _)⟩

lemma sortById_eq_of_perm (l1 l2 : List (Nat × Bool)) (hp : l1.Perm l2)
    (hd : (l1.map Prod.fst).Nodup) : sortById l1 = sortById l2 := by
  have hp12 : (sortById l1).Perm (sortById l2) :=
    (List.perm_insertionSort idLE l1).trans
      (hp.trans (List.perm_insertionSort idLE l2).symm)
  have hd1 : ((sortById l1).map Prod.fst).Nodup :=
    (((List.perm_insertionSort idLE l1).map Prod.fst).nodup_iff).mpr hd
  have hd2 : ((sortById l2).map Prod.fst).Nodup :=
    (hp12.map Prod.fst).nodup_iff.mp hd1
  have hstrict : ∀ (l : List (Nat × Bool)), (l.map Prod.fst).Nodup →
      l.Sorted idLE → l.Sorted idLT := by
    intro l hnd hle
    have hne : l.Pairwise (fun a b => a.1 ≠ b.1) := List.pairwise_map.mp hnd
    exact (hle.and hne).imp (fun h => lt_of_le_of_ne h.1 h.2)
  exact List.eq_of_perm_of_sorted hp12
    (hstrict _ hd1 (List.sorted_insertionSort idLE l1))
    (hstrict _ hd2 (List.sorted_insertionSort idLE l2))

/-- C2 (amended): the worker pool's termination decision is invariant
under every permutation of the results log that preserves each outcome's
ID, provided the IDs are pairwise distinct (which unique claiming
guarantees in the pool). -/
theorem C2_worker_decision_perm_invariant (cfg : TermCfg)
    (l1 l2 : List (Nat × Bool)) (hp : l1.Perm l2)
    (hd : (l1.map Prod.fst).Nodup) :
    workerTermination cfg l1 = workerTermination cfg l2 := by
  rw [workerTermination, workerTermination, hp.length_eq,
    sortById_eq_of_perm l1 l2 hp hd]

theorem C2_worker_decision_perm_invariant_witness :
    workerTermination ⟨1, 2, mkRat 1 2⟩ [(1, true), (2, false)] =
      workerTermination ⟨1, 2, mkRat 1 2⟩ [(2, false), (1, true)] :=
  C2_worker_decision_perm_invariant ⟨1, 2, mkRat 1 2⟩
    [(1, true), (2, false)] [(2, false), (1, true)] (by decide) (by decide)

/-- One probe's effect on the state `(consecutive404s, recentResults)`
maintained by phase 1 of `findMaxWhiskyId` (and, with its own copies, by
phase 2): a 404 increments the counter, anything else resets it; every
probe is pushed into the sliding window. -/
def histStep (W : Nat) (s : Nat × List (Nat × Bool)) (x : Nat × Bool) :
    Nat × List (Nat × Bool) :=
  (if x.2 then s.1 + 1 else 0, pushShift W s.2 x)

/-- The phase-1 break criterion as a function of the arrival-ordered probe
history: fold the per-probe state update over the history and apply the
`consecutive404s >= minC && rate >= minRate` test. -/
def phase1CriteriaHist (cfg : TermCfg) (h : List (Nat × Bool)) : Bool :=
  criteria cfg (h.foldl (histStep cfg.W) (0, [])).1
    (h.foldl (histStep cfg.W) (0, [])).2

lemma histFold_counter_all404 :
    ∀ (h : List (Nat × Bool)) (s : Nat × List (Nat × Bool)) (W : Nat),
      (∀ x ∈ h, x.2 = true) →
      (h.foldl (histStep W) s).1 = s.1 + h.length := by
  intro h
  induction h with
  | nil => intro s W _; simp
  | cons a t ih =>
      intro s W hall
      have ha : a.2 = true := hall a (by simp)
      have ht : ∀ x ∈ t, x.2 = true := fun x hx => hall x (by simp [hx])
      simp only [List.foldl_cons, histStep, ha, if_pos]
      rw [ih _ W ht]
      simp [Nat.add_comm, Nat.add_assoc, Nat.add_left_comm]

lemma pushShift_lastN (W : Nat) (v : List (Nat × Bool)) (x : Nat × Bool) :
    pushShift W (lastN W v) x = lastN W (v ++ [x]) := by
  rcases Nat.lt_or_ge v.length W with h | h
  · have h0 : v.length - W = 0 := by omega
    have h1 : v.length + 1 - W = 0 := by omega
    simp [pushShift, lastN, h0, h1]
    omega
  · rcases Nat.eq_zero_or_pos W with hW | hW
    · subst hW
      simp [pushShift, lastN, List.drop_eq_nil_of_le]
    · have hlen : (lastN W v).length = W := length_lastN _ _ h
      have hne : lastN W v ≠ [] := by
        intro hnil
        rw [hnil] at hlen
        simp at hlen
        omega
      have hcond : W < (lastN W v ++ [x]).length := by
        simp [hlen]
      rw [pushShift]
      simp only [hcond, if_pos]
      rw [List.tail_append_of_ne_nil hne]
      have htail : (lastN W v).tail = v.drop (v.length - W + 1) := by
        rw [lastN, List.tail_drop]
      rw [htail, lastN, List.length_append]
      have hidx : v.length + [x].length - W = v.length - W + 1 := by
        simp
        omega
      rw [hidx, List.drop_append_of_le_length (by omega)]

lemma histFold_window (W : Nat) :
    ∀ (h : List (Nat × Bool)) (c : Nat) (v : List (Nat × Bool)),
      (h.foldl (histStep W) (c, lastN W v)).2 = lastN W (v ++ h) := by
  intro h
  induction h with
  | nil => intro c v; simp
  | cons x t ih =>
      intro c v
      simp only [List.foldl_cons, histStep, pushShift_lastN]
      rw [ih _ (v ++ [x])]
      simp

lemma criteria_counter_zero (cfg : TermCfg) (w : List (Nat × Bool))
    (h : 1 ≤ cfg.minC) : criteria cfg 0 w = false := by
  have hd : decide (cfg.minC ≤ 0) = false := decide_eq_false (by omega)
  rw [criteria, hd, Bool.false_and]

/-- The 4500 NotFound probes of IDs 1..4500, in arrival = ID order. -/
def histN : List (Nat × Bool) := (List.range 4500).map (fun i => (i + 1, true))

/-- History ending in the Found probe of ID 4501. -/
def histB : List (Nat × Bool) := histN ++ [(4501, false)]

/-- The same multiset of probes with the Found probe arriving first. -/
def histA : List (Nat × Bool) := (4501, false) :: histN

lemma histN_all404 : ∀ x ∈ histN, x.2 = true := by
  intro x hx
  simp only [histN, List.mem_map, List.mem_range] at hx
  obtain ⟨i, _, rfl⟩ := hx
  rfl

lemma histN_length : histN.length = 4500 := by simp [histN]

lemma histN_count404 : count404 histN = 4500 := by
  rw [count404, List.filter_eq_self.mpr histN_all404, histN_length]

/-- C2 counterexample: the claim asserts permutation-invariance for the
decision "in each of its three uses", but the BoundaryFinder phase-1 (and
phase-2) criteria read an arrival-ordered window and an arrival-order
consecutive counter.  With the code's own constants
(`minC = 3000, W = 4500, rate = 0.95`), the history in which the one Found
probe arrives first decides `true`, while the ID-preserving permutation in
which it arrives last decides `false`. -/
theorem C2_counterexample :
    histA.Perm histB ∧
    phase1CriteriaHist workerCfg histA = true ∧
    phase1CriteriaHist workerCfg histB = false := by
  refine ⟨(List.perm_append_singleton (4501, false) histN).symm, ?_, ?_⟩
  · have hW : workerCfg.W = 4500 := rfl
    have hcounter : (histA.foldl (histStep workerCfg.W) (0, [])).1 = 4500 := by
      rw [histA, List.foldl_cons]
      rw [histFold_counter_all404 histN _ _ histN_all404]
      simp [histStep, histN_length]
    have hwindow : (histA.foldl (histStep workerCfg.W) (0, [])).2 = histN := by
      have h0 : lastN workerCfg.W ([] : List (Nat × Bool)) = [] := rfl
      have := histFold_window workerCfg.W histA 0 []
      rw [h0] at this
      rw [this]
      rw [lastN, hW]
      have : histA.length = 4501 := by simp [histA, histN_length]
      simp only [List.nil_append, this]
      rw [show (4501 : Nat) - 4500 = 1 from rfl, histA, List.drop_one,
        List.tail_cons]
    rw [phase1CriteriaHist, hcounter, hwindow, criteria]
    have hrate : rateVal workerCfg.W histN = mkRat 4500 4500 := by
      rw [rateVal, hW, if_pos (by rw [histN_length]), histN_count404,
        histN_length]
      norm_cast
    rw [hrate]
    decide
  · have hcounter : (histB.foldl (histStep workerCfg.W) (0, [])).1 = 0 := by
      rw [histB, List.foldl_append]
      simp [histStep]
    rw [phase1CriteriaHist, hcounter, criteria_counter_zero]
    decide

/-! ### BoundaryFinder: `findMaxWhiskyId` (C3, C8) -/

/-- The hard safety ceiling of the exponential probe
(`if (nextBound > 10_000_000) break`). -/
def SAFETY : Nat := 10000000

/-- Loop state of phase 1 (exponential search) of `findMaxWhiskyId`:
`upperBound`, `lastValidId`, `consecutive404s`, `recentResults`. -/
structure P1State : Type where
  ub : Nat
  lastValid : Nat
  consec : Nat
  window : List (Nat × Bool)
deriving DecidableEq

/-- One iteration of the phase-1 `while (true)` loop.  `Sum.inr r` means
the loop broke with upper bound `r`; `Sum.inl` continues with the updated
state.  Probing `upperBound` either succeeds (double, or break at the
safety ceiling), throws `NOT_FOUND` (count, push, test the break
criteria, otherwise bisect back towards `lastValidId`), or throws another
error (reset the counter, push a non-404 entry, move to the next ID). -/
def phase1Step (oracle : Nat → Outcome) (cfg : TermCfg) (s : P1State) :
    P1State ⊕ Nat :=
  match oracle s.ub with
  | .found =>
      let w := pushShift cfg.W s.window (s.ub, false)
      if SAFETY < s.ub * 2 then .inr s.ub
      else .inl ⟨s.ub * 2, s.ub, 0, w⟩
  | .notFound =>
      let c := s.consec + 1
      let w := pushShift cfg.W s.window (s.ub, true)
      if criteria cfg c w then .inr s.lastValid
      else
        let u := (s.ub + s.lastValid) / 2
        .inl ⟨if u ≤ s.lastValid then s.lastValid + 1 else u,
          s.lastValid, c, w⟩
  | .err => .inl ⟨s.ub + 1, s.lastValid, 0,
      pushShift cfg.W s.window (s.ub, false)⟩

/-- Run phase 1 to completion with the given iteration budget
(`none` = budget exhausted; the source loop has no built-in bound). -/
def phase1Run (oracle : Nat → Outcome) (cfg : TermCfg) :
    Nat → P1State → Option Nat
  | 0, _ => none
  | fuel + 1, s =>
      match phase1Step oracle cfg s with
      | .inr r => some r
      | .inl s2 => phase1Run oracle cfg fuel s2

/-- Run exactly `n` iterations of phase 1, exposing the intermediate
state (used to observe the sliding window's eviction behaviour). -/
def phase1Iter (oracle : Nat → Outcome) (cfg : TermCfg) :
    Nat → P1State → P1State ⊕ Nat
  | 0, s => .inl s
  | n + 1, s =>
      match phase1Step oracle cfg s with
      | .inr r => .inr r
      | .inl s2 => phase1Iter oracle cfg n s2

/-- Loop state of phase 2 (binary search): `left`, `right`, `maxValidId`,
`binarySearch404s`, `binarySearchWindow`. -/
structure P2State : Type where
  left : Nat
  right : Nat
  maxValid : Nat
  consec : Nat
  window : List (Nat × Bool)
deriving DecidableEq

/-- One iteration of the phase-2 `while (left <= right)` loop (the guard
included: `Sum.inr` when `left > right` or the rigorous criteria break the
loop).  The embedding uses `Nat`; all runs considered start from
`startId ≥ 1`, where `mid - 1` never underflows. -/
def phase2Step (oracle : Nat → Outcome) (cfg : TermCfg) (s : P2State) :
    P2State ⊕ Nat :=
  if s.right < s.left then .inr s.maxValid
  else
    let mid := (s.left + s.right) / 2
    match oracle mid with
    | .found => .inl ⟨mid + 1, s.right, mid, 0,
        pushShift cfg.W s.window (mid, false)⟩
    | .notFound =>
        let c := s.consec + 1
        let w := pushShift cfg.W s.window (mid, true)
        if criteria cfg c w then .inr s.maxValid
        else .inl ⟨s.left, mid - 1, s.maxValid, c, w⟩
    | .err => .inl ⟨mid + 1, s.right, s.maxValid, 0,
        pushShift cfg.W s.window (mid, false)⟩

/-- Run phase 2 to completion with the given iteration budget. -/
def phase2Run (oracle : Nat → Outcome) (cfg : TermCfg) :
    Nat → P2State → Option Nat
  | 0, _ => none
  | fuel + 1, s =>
      match phase2Step oracle cfg s with
      | .inr r => some r
      | .inl s2 => phase2Run oracle cfg fuel s2

/-- `findMaxWhiskyId(scraper, startId)`: phase 1 produces the upper bound,
phase 2 binary-searches `[startId, upperBound]` starting from
`maxValidId = startId` with a fresh window. -/
def findMaxIdFuel (oracle : Nat → Outcome) (cfg : TermCfg)
    (fuel startId : Nat) : Option Nat :=
  match phase1Run oracle cfg fuel ⟨startId, startId, 0, []⟩ with
  | none => none
  | some ub => phase2Run oracle cfg fuel ⟨startId, ub, startId, 0, []⟩

/-- The synthetic source of the claim: probing ID `i` succeeds exactly for
`1 ≤ i ≤ M`, and every other probe reports `NOT_FOUND`. -/
def synthOracle (M : Nat) (i : Nat) : Outcome :=
  if 1 ≤ i ∧ i ≤ M then .found else .notFound

example : findMaxIdFuel (synthOracle 10) ⟨3, 5, mkRat 19 20⟩ 100 1 =
    some 10 := by decide

example : findMaxIdFuel (synthOracle 10000000) workerCfg 100 1 =
    some 8388608 := by decide

/-- Properties preserved by every phase-2 iteration: `maxValidId` is the
start ID or an ID whose probe succeeded, and both `maxValidId` and `left`
never drop below the start ID. -/
def P2Inv (oracle : Nat → Outcome) (startId : Nat) (s : P2State) : Prop :=
  (s.maxValid = startId ∨ oracle s.maxValid = .found) ∧
    startId ≤ s.maxValid ∧ startId ≤ s.left

lemma P2Inv.mid_ge {oracle : Nat → Outcome} {startId : Nat} {s : P2State}
    (h : P2Inv oracle startId s) (hg : ¬ s.right < s.left) :
    startId ≤ (s.left + s.right) / 2 := by
  have h1 : s.left ≤ s.right := Nat.le_of_not_lt hg
  have h2 : s.left ≤ (s.left + s.right) / 2 := by
    rw [Nat.le_div_iff_mul_le (by omega : 0 < 2)]
    omega
  exact Nat.le_trans h.2.2 h2

lemma phase2Step_inl {oracle : Nat → Outcome} {cfg : TermCfg}
    {startId : Nat} {s s2 : P2State} (h : P2Inv oracle startId s)
    (hstep : phase2Step oracle cfg s = .inl s2) :
    P2Inv oracle startId s2 := by
  simp only [phase2Step] at hstep
  by_cases hg : s.right < s.left
  · rw [if_pos hg] at hstep
    exact absurd hstep (by simp)
  · rw [if_neg hg] at hstep
    have hmid : startId ≤ (s.left + s.right) / 2 := h.mid_ge hg
    cases ho : oracle ((s.left + s.right) / 2) <;> rw [ho] at hstep
    · cases hstep
      exact ⟨Or.inr ho, hmid, by simp; omega⟩
    · by_cases hc : criteria cfg (s.consec + 1)
          (pushShift cfg.W s.window ((s.left + s.right) / 2, true))
      · rw [if_pos hc] at hstep
        exact absurd hstep (by simp)
      · rw [if_neg hc] at hstep
        cases hstep
        exact ⟨h.1, h.2.1, h.2.2⟩
    · cases hstep
      exact ⟨h.1, h.2.1, by simp; omega⟩

lemma phase2Step_inr {oracle : Nat → Outcome} {cfg : TermCfg}
    {startId : Nat} {s : P2State} {r : Nat} (h : P2Inv oracle startId s)
    (hstep : phase2Step oracle cfg s = .inr r) :
    (r = startId ∨ oracle r = .found) ∧ startId ≤ r := by
  simp only [phase2Step] at hstep
  by_cases hg : s.right < s.left
  · rw [if_pos hg] at hstep
    cases hstep
    exact ⟨h.1, h.2.1⟩
  · rw [if_neg hg] at hstep
    cases ho : oracle ((s.left + s.right) / 2) <;> rw [ho] at hstep
    · exact absurd hstep (by simp)
    · by_cases hc : criteria cfg (s.consec + 1)
          (pushShift cfg.W s.window ((s.left + s.right) / 2, true))
      · rw [if_pos hc] at hstep
        cases hstep
        exact ⟨h.1, h.2.1⟩
      · rw [if_neg hc] at hstep
        exact absurd hstep (by simp)
    · exact absurd hstep (by simp)

lemma phase2Run_result (oracle : Nat → Outcome) (cfg : TermCfg)
    (startId : Nat) :
    ∀ (fuel : Nat) (s : P2State) (r : Nat),
      phase2Run oracle cfg fuel s = some r → P2Inv oracle startId s →
      (r = startId ∨ oracle r = .found) ∧ startId ≤ r := by
  intro fuel
  induction fuel with
  | zero => intro s r h; simp [phase2Run] at h
  | succ n ih =>
      intro s r h hInv
      rw [phase2Run] at h
      rcases hstep : phase2Step oracle cfg s with s2 | r2 <;>
        rw [hstep] at h
      · exact ih s2 r h (phase2Step_inl hInv hstep)
      · cases h
        exact phase2Step_inr hInv hstep

/-- C3 (amended): `findMaxId` only returns the start ID (the documented
zero-success edge case) or an ID whose probe succeeded, and the result
never drops below the start ID; on the synthetic source where exactly IDs
`1..M` succeed, the result lies in `[startId, M]`; it equals `M` in the
verified instance `M = 10`, `minC = 3 ≤ W = 5 ≤ M`, `rate = 0.95` —
but (per the counterexample) not for every parameter choice with
`minConsecutiveNotFound ≤ windowSize ≤ M`, because the exponential probe's
10,000,000 safety ceiling (or an early window break) can truncate the
search below `M`. -/
theorem C3_boundary_finder_amended :
    (∀ (oracle : Nat → Outcome) (cfg : TermCfg) (fuel startId r : Nat),
        findMaxIdFuel oracle cfg fuel startId = some r →
        (r = startId ∨ oracle r = .found) ∧ startId ≤ r) ∧
    (∀ (M : Nat) (cfg : TermCfg) (fuel startId r : Nat),
        1 ≤ startId → startId ≤ M →
        findMaxIdFuel (synthOracle M) cfg fuel startId = some r →
        startId ≤ r ∧ r ≤ M) ∧
    findMaxIdFuel (synthOracle 10) ⟨3, 5, mkRat 19 20⟩ 100 1 = some 10 := by
  have base : ∀ (oracle : Nat → Outcome) (cfg : TermCfg)
      (fuel startId r : Nat), findMaxIdFuel oracle cfg fuel startId = some r →
      (r = startId ∨ oracle r = .found) ∧ startId ≤ r := by
    intro oracle cfg fuel startId r h
    rw [findMaxIdFuel] at h
    rcases h1 : phase1Run oracle cfg fuel ⟨startId, startId, 0, []⟩ with
      _ | ub <;> rw [h1] at h
    · exact absurd h (by simp)
    · exact phase2Run_result oracle cfg startId fuel _ r h
        ⟨Or.inl rfl, Nat.le_refl _, Nat.le_refl _⟩
  refine ⟨base, ?_, by decide⟩
  intro M cfg fuel startId r h1 hM h
  obtain ⟨hr, hge⟩ := base (synthOracle M) cfg fuel startId r h
  refine ⟨hge, ?_⟩
  rcases hr with rfl | hfound
  · exact hM
  · rw [synthOracle] at hfound
    by_cases hb : 1 ≤ r ∧ r ≤ M
    · exact hb.2
    · rw [if_neg hb] at hfound
      exact absurd hfound (by simp)

theorem C3_boundary_finder_amended_witness : 1 ≤ 10 ∧ 10 ≤ 10 :=
  C3_boundary_finder_amended.2.1 10 ⟨3, 5, mkRat 19 20⟩ 100 1 10
    (by decide) (by decide) (by decide)

/-- C3 counterexample: with the code's own termination constants
(`minConsecutiveNotFound = 3000 ≤ windowSize = 4500 ≤ M`) and the
synthetic source succeeding exactly on `1..M` for `M = 10,000,000`,
`findMaxId(1)` returns `8,388,608 = 2^23` — the last doubled probe below
the 10,000,000 safety ceiling — not `M`. -/
theorem C3_boundary_finder_counterexample :
    workerCfg.minC ≤ workerCfg.W ∧ workerCfg.W ≤ 10000000 ∧
    (1 : Nat) ≤ 10000000 ∧
    findMaxIdFuel (synthOracle 10000000) workerCfg 100 1 = some 8388608 ∧
    (8388608 : Nat) ≠ 10000000 := by
  refine ⟨by decide, by decide, by decide, by decide, by decide⟩

/-! ### C8: window length bound and eviction order -/

/-- C8 (amended): every window insertion keeps the length at most `W`; a
full phase-1/phase-2 window evicts its head — the arrival-oldest entry,
not necessarily the lowest ID; only the worker's window (the last `W`
entries of the ID-sorted results log) is bounded by ID order: every entry
it excludes has an ID at most every ID it keeps. -/
theorem C8_window_invariant_amended :
    (∀ (W : Nat) (w : List (Nat × Bool)) (x : Nat × Bool),
        w.length ≤ W → (pushShift W w x).length ≤ W) ∧
    (∀ (W : Nat) (w : List (Nat × Bool)) (x : Nat × Bool),
        1 ≤ W → w.length = W → pushShift W w x = w.tail ++ [x]) ∧
    (∀ (W : Nat) (results : List (Nat × Bool)) (x y : Nat × Bool),
        x ∈ (sortById results).take ((sortById results).length - W) →
        y ∈ lastN W (sortById results) → x.1 ≤ y.1) := by
  refine ⟨?_, ?_, ?_⟩
  · intro W w x h
    rw [pushShift]
    split
    · simp
      omega
    · simp at *
      omega
  · intro W w x hW hlen
    have hne : w ≠ [] := by
      intro hnil
      rw [hnil] at hlen
      simp at hlen
      omega
    rw [pushShift]
    have hcond : W < (w ++ [x]).length := by simp [hlen]
    simp only [hcond, if_pos]
    exact List.tail_append_of_ne_nil hne
  · intro W results x y hx hy
    have hs : (sortById results).Sorted idLE :=
      List.sorted_insertionSort idLE results
    exact hs.rel_of_mem_take_of_mem_drop hx hy

theorem C8_window_invariant_amended_witness :
    (pushShift 3 [(16, true), (12, true), (10, false)] (20, true)).length ≤
        3 ∧
    pushShift 3 [(16, true), (12, true), (10, false)] (20, true) =
      [(16, true), (12, true), (10, false)].tail ++ [(20, true)] ∧
    (1 : Nat) ≤ 2 :=
  ⟨C8_window_invariant_amended.1 3 [(16, true), (12, true), (10, false)]
      (20, true) (by decide),
    C8_window_invariant_amended.2.1 3 [(16, true), (12, true), (10, false)]
      (20, true) (by decide) (by decide),
    C8_window_invariant_amended.2.2 3
      [(2, true), (1, false), (3, false), (4, true)] (1, false) (2, true)
      (by decide) (by decide)⟩

/-- Small termination parameters (`minC = 1000` is never reached in the
first few iterations, `W = 3`) used to watch phase-1 window evictions. -/
def c8Cfg : TermCfg := ⟨1000, 3, mkRat 19 20⟩

/-- The phase-1 `recentResults` window after `n` probes against the
synthetic source with maximum valid ID 10, starting from ID 1. -/
def p1WindowAfter (n : Nat) : List (Nat × Bool) :=
  match phase1Iter (synthOracle 10) c8Cfg n ⟨1, 1, 0, []⟩ with
  | .inl s => s.window
  | .inr _ => []

/-- C8 counterexample: in phase 1 of `findMaxWhiskyId`, after the probe
sequence 1, 2, 4, 8, 16, 12, 10 the window holds IDs `[16, 12, 10]` in
arrival order; inserting the next probe (ID 20) evicts the entry with
ID 16 even though the entry with ID 10 — the oldest by ID — remains, so
insertion evicts the oldest by arrival order, not by ID order. -/
theorem C8_window_eviction_counterexample :
    p1WindowAfter 7 = [(16, true), (12, true), (10, false)] ∧
    p1WindowAfter 8 = [(12, true), (10, false), (20, true)] ∧
    (16, true) ∈ p1WindowAfter 7 ∧ (16, true) ∉ p1WindowAfter 8 ∧
    (10, false) ∈ p1WindowAfter 7 ∧ (10, false) ∈ p1WindowAfter 8 ∧
    10 < 16 := by
  decide

/-! ### BatchBuffer (C1, C6, C9) -/

/-- Atomic sections of `BatchBuffer` relevant to record conservation.
`add` appends to the active buffer; `flushStart` is the synchronous head
of `flush()` (snapshot-and-swap the buffer and hand the snapshot to
`saveWhiskyDataBatch`) — both the size trigger in `add` and the auto-flush
timer reach it, and it is a no-op on an empty buffer, exactly as
`flush()`; `flushEnd` is the completion of the in-flight persistence call
(successful or failed — either way the snapshot was already passed). -/
inductive BBEvent (α : Type) : Type
  | add (r : α)
  | flushStart
  | flushEnd

/-- `BatchBuffer` state: the active buffer, the in-flight snapshot
(`flushPromise`/`flushing`), and the concatenation of every batch passed
to `saveWhiskyDataBatch` so far. -/
structure BBState (α : Type) : Type where
  buffer : List α
  inflight : Option (List α)
  passed : List α

/-- Effect of one event; `none` marks transitions the single-threaded
source can never take (starting a snapshot while one is in flight — the
`flushPromise` guard — or completing a flush when none is running). -/
def bbApply {α : Type} (s : BBState α) : BBEvent α → Option (BBState α)
  | .add r => some ⟨s.buffer ++ [r], s.inflight, s.passed⟩
  | .flushStart =>
      match s.inflight with
      | some _ => none
      | none =>
          if s.buffer.isEmpty then some s
          else some ⟨[], some s.buffer, s.passed ++ s.buffer⟩
  | .flushEnd =>
      match s.inflight with
      | none => none
      | some _ => some ⟨s.buffer, none, s.passed⟩

/-- Run an event trace from the freshly-constructed buffer. -/
def bbRun {α : Type} (tr : List (BBEvent α)) : Option (BBState α) :=
  tr.foldlM bbApply ⟨[], none, []⟩

/-- The records fed to `add` along a trace, in order. -/
def bbAdds {α : Type} (tr : List (BBEvent α)) : List α :=
  tr.filterMap (fun e => match e with | .add r => some r | _ => none)

lemma bbRun_inv {α : Type} : ∀ (tr : List (BBEvent α)) (s0 s : BBState α),
    List.foldlM bbApply s0 tr = some s →
    (s.passed : Multiset α) + (s.buffer : Multiset α) =
      (s0.passed : Multiset α) + (s0.buffer : Multiset α) +
        (bbAdds tr : Multiset α) := by
  intro tr
  induction tr with
  | nil =>
      intro s0 s h
      simp at h
      subst h
      simp [bbAdds]
  | cons e t ih =>
      intro s0 s h
      rw [List.foldlM_cons] at h
      cases e with
      | add r =>
          simp only [bbApply, Option.some_bind] at h
          have heq := ih _ s h
          simp only [bbAdds, List.filterMap_cons] at heq ⊢
          simp at heq ⊢
          refine heq.trans ?_
          refine (List.perm_append_comm_assoc _ _ _).trans ?_
          exact List.perm_append_comm_assoc _ _ _
      | flushStart =>
          simp only [bbApply] at h
          cases hif : s0.inflight with
          | some b => rw [hif] at h; simp at h
          | none =>
              rw [hif] at h
              by_cases hb : s0.buffer.isEmpty
              · simp only [hb, if_true, Option.some_bind] at h
                have heq := ih _ s h
                simp only [bbAdds, List.filterMap_cons] at heq ⊢
                simpa using heq
              · simp only [hb, if_false, Option.some_bind] at h
                have heq := ih _ s h
                simp only [bbAdds, List.filterMap_cons] at heq ⊢
                simp at heq ⊢
                exact heq
      | flushEnd =>
          simp only [bbApply] at h
          cases hif : s0.inflight with
          | none => rw [hif] at h; simp at h
          | some b =>
              rw [hif] at h
              simp only [Option.some_bind] at h
              have heq := ih _ s h
              simp only [bbAdds, List.filterMap_cons] at heq ⊢
              simpa using heq

/-- C1: along every well-formed interleaving of `add` calls,
size-triggered or timer-triggered flush starts, and flush completions, if
the trace ends with an empty buffer and no in-flight flush (the state
`flushAll` leaves behind), then the multiset of records passed to the
persistence call equals the multiset of records added — every record
exactly once, none lost, none duplicated. -/
theorem C1_batchbuffer_exactly_once {α : Type} (tr : List (BBEvent α))
    (s : BBState α) (h : bbRun tr = some s) (_hifl : s.inflight = none)
    (hbuf : s.buffer = []) :
    (s.passed : Multiset α) = (bbAdds tr : Multiset α) := by
  have hinv := bbRun_inv tr ⟨[], none, []⟩ s h
  rw [hbuf] at hinv
  simpa using hinv

theorem C1_batchbuffer_exactly_once_witness :
    (([1, 2] : List Nat) : Multiset Nat) =
      (bbAdds [BBEvent.add 1, BBEvent.add 2, BBEvent.flushStart,
        BBEvent.flushEnd] : Multiset Nat) :=
  C1_batchbuffer_exactly_once
    [BBEvent.add 1, BBEvent.add 2, BBEvent.flushStart, BBEvent.flushEnd]
    ⟨[], none, [1, 2]⟩ rfl rfl rfl

/-! ### C9: `flushAll` drains and terminates -/

/-- `BatchBuffer` state as seen by `flushAll`: the active buffer, the
records persisted successfully so far, the in-flight snapshot, and
whether the auto-flush timer is armed. -/
structure DrainState (α : Type) : Type where
  buffer : List α
  persisted : List α
  inflight : Option (List α)
  timerOn : Bool

/-- The `while (this.buffer.length > 0)` drain loop of `flushAll`,
operating on `(buffer, persisted)`: a successful `flush()` snapshots the
whole buffer and persists it; a failed one is logged, the buffer is
cleared and the loop breaks.  `ok n` tells whether the `n`-th persistence
call of the drain succeeds; the fuel bounds the number of iterations
(`none` = budget exhausted with the buffer still non-empty). -/
def drainLoop {α : Type} (ok : Nat → Bool) :
    Nat → List α × List α → Option (List α × List α)
  | 0, _ => none
  | fuel + 1, (buf, per) =>
      if buf.isEmpty then some (buf, per)
      else if ok 0 then drainLoop (fun n => ok (n + 1)) fuel ([], per ++ buf)
      else some ([], per)

/-- `flushAll()`: stop the auto-flush timer, await the in-flight flush if
any (its outcome `iOk` decides whether its snapshot was persisted; either
way it is not restored to the buffer), then drain. -/
def flushAllModel {α : Type} (iOk : Bool) (ok : Nat → Bool) (fuel : Nat)
    (s : DrainState α) : Option (DrainState α) :=
  match drainLoop ok fuel
      (s.buffer,
        if iOk then s.persisted ++ s.inflight.getD [] else s.persisted) with
  | none => none
  | some (b, p) => some ⟨b, p, none, false⟩

/-- C9: `flushAll` always terminates — two drain iterations suffice for
every starting state and every persistence outcome, because a successful
flush empties the whole buffer and a failed one clears it and breaks.
The final state has the timer stopped, no in-flight flush, and an empty
buffer; the drained buffer is persisted exactly when its flush succeeds
(on failure the error is only logged and those records are dropped). -/
theorem C9_flushAll_terminates {α : Type} (s : DrainState α) (iOk : Bool)
    (ok : Nat → Bool) :
    (flushAllModel iOk ok 2 s).isSome = true ∧
    flushAllModel iOk ok 2 s =
      some ⟨[],
        (if iOk then s.persisted ++ s.inflight.getD [] else s.persisted) ++
          (if ok 0 ∨ s.buffer.isEmpty then s.buffer else []),
        none, false⟩ := by
  have hrun : ∀ p : List α, drainLoop ok 2 (s.buffer, p) =
      some ([], p ++ (if ok 0 ∨ s.buffer.isEmpty then s.buffer else [])) := by
    intro p
    by_cases hb : s.buffer.isEmpty
    · have : s.buffer = [] := List.isEmpty_iff.mp hb
      rw [drainLoop]
      simp [this]
    · rw [drainLoop]
      simp only [hb, if_false]
      by_cases hok : ok 0
      · rw [if_pos hok, drainLoop]
        simp [hok]
      · rw [if_neg hok]
        simp [hok, hb]
  constructor
  · rw [flushAllModel, hrun]
    rfl
  · rw [flushAllModel, hrun]

/-! ### C6: batch counts under sequential `add` + `flushAll` -/

/-- `BatchBuffer` under a persistence stub that completes synchronously:
the active buffer plus the list of batches passed to flush calls. -/
structure SyncBB (α : Type) : Type where
  buffer : List α
  calls : List (List α)

/-- `add(data)` with a synchronous flush: push onto the buffer; once
`buffer.length >= batchSize` (and no flush is running, which is always
true here because the stub completes before `add` returns), `flush()`
snapshots the whole buffer, records the call, and clears it. -/
def addSync {α : Type} (B : Nat) (s : SyncBB α) (r : α) : SyncBB α :=
  let buf := s.buffer ++ [r]
  if B ≤ buf.length then ⟨[], s.calls ++ [buf]⟩ else ⟨buf, s.calls⟩

/-- `flushAll()` with a synchronous stub and no concurrent producers: no
timer, no in-flight flush, and the drain loop runs at most once. -/
def flushAllSync {α : Type} (s : SyncBB α) : SyncBB α :=
  if s.buffer.isEmpty then s else ⟨[], s.calls ++ [s.buffer]⟩

/-- Feed the records sequentially and then drain. -/
def runSync {α : Type} (B : Nat) (rs : List α) : SyncBB α :=
  flushAllSync (rs.foldl (addSync B) ⟨[], []⟩)

/-- The chunking of `saveWhiskyDataBatch`: batches longer than the hard
ceiling `CHUNK_SIZE = 25` are split into consecutive slices of at most 25
before being persisted; the empty batch produces no persistence call. -/
def saveChunks {α : Type} (l : List α) : List (List α) :=
  if _h : l.length ≤ 25 then (if l.isEmpty then [] else [l])
  else saveChunks (l.take 25) ++ saveChunks (l.drop 25)
termination_by l.length
decreasing_by
  · simp
    omega
  · simp
    omega

/-- Total number of chunks handed to single persistence calls. -/
def totalChunks {α : Type} (s : SyncBB α) : Nat :=
  (s.calls.map (fun c => (saveChunks c).length)).sum

lemma addSync_fold_inv {α : Type} (B : Nat) (hB : 1 ≤ B) :
    ∀ (rs : List α) (s : SyncBB α) (n : Nat),
      s.buffer.length = n % B → s.calls.length = n / B →
      (∀ c ∈ s.calls, c.length = B) →
      (rs.foldl (addSync B) s).buffer.length = (n + rs.length) % B ∧
      (rs.foldl (addSync B) s).calls.length = (n + rs.length) / B ∧
      (∀ c ∈ (rs.foldl (addSync B) s).calls, c.length = B) := by
  intro rs
  induction rs with
  | nil => intro s n h1 h2 h3; simpa using ⟨h1, h2, h3⟩
  | cons r t ih =>
      intro s n h1 h2 h3
      rw [List.foldl_cons]
      have hq := Nat.div_add_mod n B
      by_cases hfull : B ≤ s.buffer.length + 1
      · have hmod : n % B + 1 = B := by
          have := Nat.mod_lt n (show 0 < B by omega)
          omega
        have hstep : addSync B s r = ⟨[], s.calls ++ [s.buffer ++ [r]]⟩ := by
          rw [addSync]
          simp only [List.length_append, List.length_cons,
            List.length_nil]
          rw [if_pos (by simpa using hfull)]
        rw [hstep]
        have hn0 : n + 1 = B * (n / B + 1) := by
          rw [Nat.mul_succ]
          omega
        have hn1 : (n + 1) % B = 0 := by
          rw [hn0]
          exact Nat.mul_mod_right _ _
        have hn2 : (n + 1) / B = n / B + 1 := by
          rw [hn0, Nat.mul_div_cancel_left _ (show 0 < B by omega)]
        have := ih ⟨[], s.calls ++ [s.buffer ++ [r]]⟩ (n + 1)
          (by simp [hn1]) (by simp [h2, hn2])
          (by
            intro c hc
            rw [List.mem_append] at hc
            rcases hc with hc | hc
            · exact h3 c hc
            · simp at hc
              subst hc
              simp [h1]
              omega)
        simpa [Nat.add_assoc, Nat.add_comm 1 t.length] using this
      · have hstep : addSync B s r = ⟨s.buffer ++ [r], s.calls⟩ := by
          rw [addSync]
          simp only [List.length_append, List.length_cons, List.length_nil]
          rw [if_neg (by simpa using hfull)]
        rw [hstep]
        have hmod : n % B + 1 < B := by omega
        have hn1 : (n + 1) % B = n % B + 1 := by
          have : n + 1 = B * (n / B) + (n % B + 1) := by omega
          rw [this, Nat.mul_add_mod]
          exact Nat.mod_eq_of_lt hmod
        have hn2 : (n + 1) / B = n / B := by
          have : n + 1 = B * (n / B) + (n % B + 1) := by omega
          rw [this, Nat.mul_add_div (show 0 < B by omega)]
          rw [Nat.div_eq_of_lt hmod]
          omega
        have := ih ⟨s.buffer ++ [r], s.calls⟩ (n + 1)
          (by simp [h1, hn1]) (by simp [h2, hn2]) (by simpa using h3)
        simpa [Nat.add_assoc, Nat.add_comm 1 t.length] using this

lemma saveChunks_small {α : Type} (l : List α) (h1 : 1 ≤ l.length)
    (h25 : l.length ≤ 25) : saveChunks l = [l] := by
  rw [saveChunks]
  have hne : l.isEmpty = false := by
    cases l
    · simp at h1
    · rfl
  simp [h25, hne]

/-- C6: with `1 ≤ batchSize ≤ 25` (the hard chunk ceiling), feeding `K`
records sequentially against a synchronous flush stub and then calling
`flushAll` produces exactly `ceil(K/B)` flush calls and the same number of
persisted chunks; and in the spec's example (`batchSize = 2`, five `add`
calls) there are exactly 3 flush calls with sizes `[2, 2, 1]`. -/
theorem C6_batch_and_chunk_counts :
    (∀ (α : Type) (B : Nat) (rs : List α), 1 ≤ B → B ≤ 25 →
      (runSync B rs).calls.length = (rs.length + B - 1) / B ∧
      totalChunks (runSync B rs) = (rs.length + B - 1) / B) ∧
    (runSync 2 [1, 2, 3, 4, 5]).calls.map List.length = [2, 2, 1] := by
  constructor
  · intro α B rs hB h25
    obtain ⟨hbuf, hcalls, hall⟩ := addSync_fold_inv B hB rs ⟨[], []⟩ 0
      (by simp) (by simp) (by simp)
    rw [Nat.zero_add] at hbuf hcalls
    set t := rs.foldl (addSync B) ⟨[], []⟩ with ht
    have hceil : ∀ (final : SyncBB α),
        final.calls.length = (rs.length + B - 1) / B →
        (∀ c ∈ final.calls, 1 ≤ c.length ∧ c.length ≤ 25) →
        final.calls.length = (rs.length + B - 1) / B ∧
        totalChunks final = (rs.length + B - 1) / B := by
      intro final hlen hsz
      refine ⟨hlen, ?_⟩
      rw [totalChunks]
      have hone : ∀ c ∈ final.calls, (saveChunks c).length = 1 := by
        intro c hc
        rw [saveChunks_small c (hsz c hc).1 (hsz c hc).2]
        rfl
      calc (final.calls.map (fun c => (saveChunks c).length)).sum
          = (final.calls.map (fun _ => 1)).sum := by
            rw [List.map_congr_left hone]
        _ = final.calls.length := by
            simp [List.map_const]
        _ = (rs.length + B - 1) / B := hlen
    have hB0 : 0 < B := by omega
    by_cases hrem : rs.length % B = 0
    · obtain ⟨q, hK⟩ : ∃ q, rs.length = B * q := by
        refine ⟨rs.length / B, ?_⟩
        have hdm := Nat.div_add_mod rs.length B
        omega
      have hbnil : t.buffer = [] := by
        refine List.length_eq_zero.mp ?_
        rw [hbuf, hrem]
      have hdrain : runSync B rs = t := by
        rw [runSync, ← ht, flushAllSync]
        simp [hbnil]
      have hdivq : rs.length / B = q := by
        rw [hK, Nat.mul_div_cancel_left _ hB0]
      have hceilq : (rs.length + B - 1) / B = q := by
        have h1 : rs.length + B - 1 = B * q + (B - 1) := by
          rw [hK]
          omega
        rw [h1, Nat.mul_add_div hB0,
          Nat.div_eq_of_lt (show B - 1 < B by omega)]
        omega
      rw [hdrain]
      refine hceil t ?_ ?_
      · rw [hcalls, hdivq, hceilq]
      · intro c hc
        have := hall c hc
        omega
    · obtain ⟨q, m, hm1, hmB, hK⟩ :
          ∃ q m, 1 ≤ m ∧ m < B ∧ rs.length = B * q + m := by
        refine ⟨rs.length / B, rs.length % B, Nat.pos_of_ne_zero hrem,
          Nat.mod_lt _ hB0, ?_⟩
        have hdm := Nat.div_add_mod rs.length B
        omega
      have hmodm : t.buffer.length = m := by
        rw [hbuf, hK, Nat.mul_add_mod]
        exact Nat.mod_eq_of_lt hmB
      have hne : t.buffer.isEmpty = false := by
        have hlen : t.buffer.length ≠ 0 := by omega
        cases hcase : t.buffer with
        | nil => rw [hcase] at hlen; simp at hlen
        | cons a l => rfl
      have hdrain : runSync B rs = ⟨[], t.calls ++ [t.buffer]⟩ := by
        rw [runSync, ← ht, flushAllSync, hne]
        rfl
      have hdivq : rs.length / B = q := by
        rw [hK, Nat.mul_add_div hB0, Nat.div_eq_of_lt hmB]
        omega
      have hceilq : (rs.length + B - 1) / B = q + 1 := by
        have h1 : rs.length + B - 1 = B * (q + 1) + (m - 1) := by
          rw [hK, Nat.mul_succ]
          omega
        rw [h1, Nat.mul_add_div hB0,
          Nat.div_eq_of_lt (show m - 1 < B by omega)]
      rw [hdrain]
      refine hceil _ ?_ ?_
      · simp only [List.length_append, List.length_cons, List.length_nil]
        rw [hcalls, hdivq, hceilq]
      · intro c hc
        rw [List.mem_append] at hc
        rcases hc with hc | hc
        · have := hall c hc
          omega
        · simp at hc
          subst hc
          rw [hmodm]
          omega
  · decide

theorem C6_batch_and_chunk_counts_witness :
    (runSync 2 [1, 2, 3, 4, 5]).calls.length = (5 + 2 - 1) / 2 ∧
    totalChunks (runSync 2 [1, 2, 3, 4, 5]) = (5 + 2 - 1) / 2 := by
  have := C6_batch_and_chunk_counts.1 Nat 2 [1, 2, 3, 4, 5]
    (by decide) (by decide)
  simpa using this

/-! ### WorkerPool (C4, C7, C10) -/

/-- The worker's loop-exit test: `while (!shouldStop)` together with
`if (actualMaxId && nextId > actualMaxId) break`.  `maxB = some m` models
a provided `actualMaxId = m`; JavaScript truthiness makes `m = 0` behave
exactly as if no bound had been provided. -/
def exitFlag (maxB : Option Nat) (stop : Bool) (nextId : Nat) : Bool :=
  stop ||
    (match maxB with
      | some m => decide (m ≠ 0) && decide (m < nextId)
      | none => false)

/-- Shared state of the worker pool: the `nextId` claim counter, the IDs
claimed so far, the shared results log and the stop flag. -/
structure PoolState : Type where
  nextId : Nat
  claimed : List Nat
  results : List (Nat × Bool)
  shouldStop : Bool

/-- Atomic sections a worker `w` can execute between `await` points:
claiming `const currentId = nextId++` (guarded by the loop-exit test),
recording an outcome in the shared results log, and re-evaluating the
stopping criteria.  `none` marks a claim attempted after the exit test
fires — the single-threaded source never takes it. -/
inductive PoolEvent : Type
  | claim (w : Nat)
  | record (w : Nat) (id : Nat) (is404 : Bool)
  | checkStop (w : Nat)

def applyPool (maxB : Option Nat) (cfg : TermCfg) (s : PoolState) :
    PoolEvent → Option PoolState
  | .claim _ =>
      if exitFlag maxB s.shouldStop s.nextId then none
      else some ⟨s.nextId + 1, s.claimed ++ [s.nextId], s.results,
        s.shouldStop⟩
  | .record _ id b =>
      some ⟨s.nextId, s.claimed, s.results ++ [(id, b)], s.shouldStop⟩
  | .checkStop _ =>
      some ⟨s.nextId, s.claimed, s.results,
        s.shouldStop || workerTermination cfg s.results⟩

/-- Run an interleaved trace of worker events from the start of a scan. -/
def poolTrace (maxB : Option Nat) (cfg : TermCfg) (startId : Nat)
    (tr : List PoolEvent) : Option PoolState :=
  tr.foldlM (applyPool maxB cfg) ⟨startId, [], [], false⟩

lemma poolTrace_claimed_range (maxB : Option Nat) (cfg : TermCfg)
    (startId : Nat) :
    ∀ (tr : List PoolEvent) (s0 s : PoolState),
      List.foldlM (applyPool maxB cfg) s0 tr = some s →
      (∃ k, s0.claimed = List.range' startId k ∧
        s0.nextId = startId + k) →
      ∃ k, s.claimed = List.range' startId k ∧ s.nextId = startId + k := by
  intro tr
  induction tr with
  | nil =>
      intro s0 s h hk
      simp at h
      subst h
      exact hk
  | cons e t ih =>
      intro s0 s h hk
      rw [List.foldlM_cons] at h
      obtain ⟨k, hc, hn⟩ := hk
      cases e with
      | claim w =>
          simp only [applyPool] at h
          by_cases hex : exitFlag maxB s0.shouldStop s0.nextId
          · rw [if_pos hex] at h
            simp at h
          · rw [if_neg hex] at h
            refine ih _ s h ⟨k + 1, ?_, ?_⟩
            · simp only [hc, hn]
              exact List.range'_1_concat startId k ▸ rfl
            · simp [hn]
              omega
      | record w id b =>
          simp only [applyPool, Option.some_bind] at h
          exact ih _ s h ⟨k, hc, hn⟩
      | checkStop w =>
          simp only [applyPool, Option.some_bind] at h
          exact ih _ s h ⟨k, hc, hn⟩

/-- C7: in every reachable pool state, the claimed IDs are pairwise
distinct (they are exactly `startId, startId+1, ...` in claim order), and
a worker's loop-exit test is true exactly when the stop flag is set or —
when a positive `maxId` is known — the claim counter exceeds `maxId`;
without a known `maxId` only the stop flag ends the loop. -/
theorem C7_unique_claims_and_exit :
    (∀ (maxB : Option Nat) (cfg : TermCfg) (startId : Nat)
        (tr : List PoolEvent) (s : PoolState),
        poolTrace maxB cfg startId tr = some s → s.claimed.Nodup) ∧
    (∀ (m : Nat) (stop : Bool) (nextId : Nat), 1 ≤ m →
        exitFlag (some m) stop nextId = (stop || decide (m < nextId))) ∧
    (∀ (stop : Bool) (nextId : Nat), exitFlag none stop nextId = stop) := by
  refine ⟨?_, ?_, ?_⟩
  · intro maxB cfg startId tr s h
    obtain ⟨k, hc, _⟩ := poolTrace_claimed_range maxB cfg startId tr _ s h
      ⟨0, rfl, rfl⟩
    rw [hc]
    exact List.nodup_range' _ _
  · intro m stop nextId hm
    rw [exitFlag, decide_eq_true (show m ≠ 0 by omega), Bool.true_and]
  · intro stop nextId
    simp [exitFlag]

theorem C7_unique_claims_and_exit_witness :
    ([1] : List Nat).Nodup ∧
    exitFlag (some 5) false 1 = (false || decide (5 < 1)) :=
  ⟨C7_unique_claims_and_exit.1 none workerCfg 1 [PoolEvent.claim 0]
      ⟨2, [1], [], false⟩ rfl,
    C7_unique_claims_and_exit.2.1 5 false 1 (by decide)⟩

lemma poolTrace_bound (m : Nat) (cfg : TermCfg) (hm : 1 ≤ m) :
    ∀ (tr : List PoolEvent) (s0 s : PoolState),
      List.foldlM (applyPool (some m) cfg) s0 tr = some s →
      s0.claimed.all (fun id => decide (id ≤ m)) = true →
      s.claimed.all (fun id => decide (id ≤ m)) = true := by
  intro tr
  induction tr with
  | nil =>
      intro s0 s h hall
      simp at h
      subst h
      exact hall
  | cons e t ih =>
      intro s0 s h hall
      rw [List.foldlM_cons] at h
      cases e with
      | claim w =>
          simp only [applyPool] at h
          by_cases hex : exitFlag (some m) s0.shouldStop s0.nextId
          · rw [if_pos hex] at h
            simp at h
          · rw [if_neg hex] at h
            refine ih _ s h ?_
            rw [List.all_append, hall, Bool.true_and]
            have hle : s0.nextId ≤ m := by
              rw [exitFlag, decide_eq_true (show m ≠ 0 by omega),
                Bool.true_and, Bool.or_eq_true, not_or] at hex
              push_neg at hex
              have := hex.2
              simpa using this
            simp [hle]
      | record w id b =>
          simp only [applyPool, Option.some_bind] at h
          exact ih _ s h hall
      | checkStop w =>
          simp only [applyPool, Option.some_bind] at h
          exact ih _ s h hall

/-- C10: with `maxId = 0`, JavaScript truthiness makes the bound conjunct
false, so the loop-exit test degenerates to the stop flag alone — the pool
scans without an upper limit instead of processing no IDs; and for every
strictly positive `maxId`, every claimed ID is at most `maxId`. -/
theorem C10_zero_maxid_unbounded_and_positive_bound :
    (∀ (stop : Bool) (nextId : Nat),
        exitFlag (some 0) stop nextId = exitFlag none stop nextId) ∧
    (∀ (m : Nat) (cfg : TermCfg) (startId : Nat) (tr : List PoolEvent)
        (s : PoolState), 1 ≤ m →
        poolTrace (some m) cfg startId tr = some s →
        s.claimed.all (fun id => decide (id ≤ m)) = true) := by
  constructor
  · intro stop nextId
    simp [exitFlag]
  · intro m cfg startId tr s hm h
    exact poolTrace_bound m cfg hm tr _ s h (by simp)

theorem C10_zero_maxid_unbounded_and_positive_bound_witness :
    exitFlag (some 0) false 7 = exitFlag none false 7 ∧
    (([1] : List Nat).all (fun id => decide (id ≤ 5)) = true) :=
  ⟨C10_zero_maxid_unbounded_and_positive_bound.1 false 7,
    C10_zero_maxid_unbounded_and_positive_bound.2 5 workerCfg 1
      [PoolEvent.claim 0] ⟨2, [1], [], false⟩ (by decide) rfl⟩

/-! ### C4: application errors and the (absent) consecutive-error ceiling -/

/-- State of a deterministic single-worker scan. -/
structure SeqState : Type where
  nextId : Nat
  results : List (Nat × Bool)
  shouldStop : Bool

/-- One full pass of the worker body at concurrency 1: claim the next ID,
classify the scraped outcome — `NOT_FOUND` is recorded as `is404 = true`;
found data, "no data", and every other error are all recorded as
`is404 = false` (an application error is additionally only logged: the
source updates no error counter of any kind) — then re-evaluate the
stopping criteria over the results log. -/
def seqStep (oracle : Nat → Outcome) (cfg : TermCfg) (s : SeqState) :
    SeqState :=
  let res := s.results ++ [(s.nextId, decide (oracle s.nextId = .notFound))]
  ⟨s.nextId + 1, res, s.shouldStop || workerTermination cfg res⟩

/-- The worker loop at concurrency 1 with an iteration budget
(`none` = budget exhausted before the loop exited). -/
def seqRun (oracle : Nat → Outcome) (cfg : TermCfg) (maxB : Option Nat) :
    Nat → SeqState → Option SeqState
  | 0, _ => none
  | fuel + 1, s =>
      if exitFlag maxB s.shouldStop s.nextId then some s
      else seqRun oracle cfg maxB fuel (seqStep oracle cfg s)

lemma takeWhile_all_false (l : List (Nat × Bool))
    (h : ∀ x ∈ l, x.2 = false) : l.takeWhile (fun r => r.2) = [] := by
  cases l with
  | nil => rfl
  | cons a t =>
      rw [List.takeWhile_cons]
      simp [h a (by simp)]

lemma workerTermination_all_false (cfg : TermCfg) (l : List (Nat × Bool))
    (hC : 1 ≤ cfg.minC) (h : ∀ x ∈ l, x.2 = false) :
    workerTermination cfg l = false := by
  rw [workerTermination]
  split
  · have hmem : ∀ x ∈ lastN cfg.W (sortById l), x.2 = false := by
      intro x hx
      have hs : x ∈ sortById l := List.mem_of_mem_drop hx
      exact h x ((List.perm_insertionSort idLE l).mem_iff.mp hs)
    have ht : trailing404 (lastN cfg.W (sortById l)) = 0 := by
      rw [trailing404, takeWhile_all_false]
      · rfl
      · intro x hx
        exact hmem x (List.mem_reverse.mp hx)
    simp only [ht, decide_eq_false (show ¬ cfg.minC ≤ 0 by omega),
      Bool.false_and]
  · rfl

lemma seqRun_all_err (oracle : Nat → Outcome) (cfg : TermCfg) (m : Nat)
    (hC : 1 ≤ cfg.minC) (hm : 1 ≤ m) (hO : ∀ i, oracle i = .err) :
    ∀ (fuel : Nat) (s : SeqState), s.shouldStop = false →
      (∀ x ∈ s.results, x.2 = false) → 1 ≤ fuel →
      m + 2 ≤ s.nextId + fuel →
      ∃ t, seqRun oracle cfg (some m) fuel s = some t ∧
        t.shouldStop = false ∧
        t.results.length = s.results.length + (m + 1 - s.nextId) := by
  intro fuel
  induction fuel with
  | zero => intro s _ _ hf; omega
  | succ n ih =>
      intro s hstop hres _ hbound
      rw [seqRun]
      by_cases hgt : m < s.nextId
      · rw [if_pos]
        · exact ⟨s, rfl, hstop, by omega⟩
        · rw [exitFlag, hstop, Bool.false_or,
            decide_eq_true (show m ≠ 0 by omega),
            Bool.true_and, decide_eq_true hgt]
      · rw [if_neg]
        · have hres2 : ∀ x ∈ (seqStep oracle cfg s).results, x.2 = false := by
            intro x hx
            rw [seqStep] at hx
            simp only [List.mem_append, List.mem_singleton] at hx
            rcases hx with hx | hx
            · exact hres x hx
            · rw [hx]
              simp [hO s.nextId]
          have hstop2 : (seqStep oracle cfg s).shouldStop = false := by
            rw [seqStep]
            simp only [hstop, Bool.false_or]
            exact workerTermination_all_false cfg _ hC hres2
          obtain ⟨t, ht, h1, h2⟩ := ih (seqStep oracle cfg s) hstop2 hres2
            (by omega) (by rw [seqStep]; simp; omega)
          refine ⟨t, ht, h1, ?_⟩
          rw [h2, seqStep]
          simp
          omega
        · rw [exitFlag, hstop, Bool.false_or,
            decide_eq_true (show m ≠ 0 by omega), Bool.true_and]
          simp [hgt]

/-- The always-failing fetch collaborator: every probe is an application
error (not `NOT_FOUND`). -/
def errOracle : Nat → Outcome := fun _ => .err

/-- Observable summary of a bounded scan from ID 1: whether the loop
exited within the budget, the final stop flag, and how many outcomes were
recorded. -/
def runStopCount (oracle : Nat → Outcome) (cfg : TermCfg)
    (maxB : Option Nat) (fuel : Nat) : Option (Bool × Nat) :=
  (seqRun oracle cfg maxB fuel ⟨1, [], false⟩).map
    (fun t => (t.shouldStop, t.results.length))

/-- C4 (amended): an application-error outcome is recorded as a
non-NotFound result and merely logged — the source maintains no
consecutive-error counter and no ceiling, so a scan in which every single
outcome is an application error still runs to its ID bound and finishes
with the stop flag unset (no abort, hence no `status=error` write from the
pool). -/
theorem C4_no_error_ceiling_amended (oracle : Nat → Outcome)
    (cfg : TermCfg) (m fuel : Nat) (hC : 1 ≤ cfg.minC)
    (hO : ∀ i, oracle i = .err) (hm : 1 ≤ m) (hfuel : m + 2 ≤ 1 + fuel) :
    runStopCount oracle cfg (some m) fuel = some (false, m) := by
  obtain ⟨t, ht, hstop, hlen⟩ := seqRun_all_err oracle cfg m hC hm hO fuel
    ⟨1, [], false⟩ rfl (by simp) (by omega) (by simpa using hfuel)
  rw [runStopCount, ht]
  have hl : t.results.length = m := by
    simp at hlen
    omega
  simp [hstop, hl]

theorem C4_no_error_ceiling_amended_witness :
    runStopCount errOracle workerCfg (some 3) 10 = some (false, 3) :=
  C4_no_error_ceiling_amended errOracle workerCfg 3 10 (by decide)
    (fun _ => rfl) (by decide) (by decide)

/-- C4 counterexample: a run of 3001 consecutive application errors —
more than the only configured ceiling-like constant in the source
(`minConsecutive404s = 3000`) — neither increments any error counter nor
aborts the pool: the scan runs to its bound and ends with the stop flag
still unset, so no fatal error propagates and progress is not written
with `status=error`. -/
theorem C4_error_counter_counterexample :
    runStopCount errOracle workerCfg (some 3001) 4000 =
      some (false, 3001) := by
  obtain ⟨t, ht, hstop, hlen⟩ := seqRun_all_err errOracle workerCfg 3001
    (by decide) (by decide) (fun _ => rfl) 4000 ⟨1, [], false⟩ rfl
    (by simp) (by omega) (by omega)
  rw [runStopCount, ht]
  have hl : t.results.length = 3001 := by
    simp at hlen
    omega
  simp [hstop, hl]

end Shwisk
